import Mathlib

/-!
Verification of the knowledge-base and context-assembler core
(crates narrative_core and game_rules).

The Rust code is shallowly embedded as follows.

Containers: every std HashMap is modelled as an association list
(a list of key-value pairs with at most one entry per key), every
HashSet as a duplicate-free list.  Where the Rust code iterates over a
HashMap in unspecified order, the corresponding Lean definition either
is order-insensitive or takes the iteration order as an explicit list
parameter, and the theorems quantify over all permutations of the
canonical entry list.

Numbers: f32 arithmetic is modelled exactly over the rationals, and over
the reals where the natural logarithm is involved.  i32 and u32 are
modelled as the unbounded integers and naturals; the saturating
f32-to-u32 cast is modelled explicitly.  128-bit random identifiers are
modelled as naturals supplied by the caller.
-/

namespace Cortex

/-! ## Association-list model of HashMap / HashSet -/

/-- Lookup of a key in an association list, mirroring HashMap::get. -/
def alistGet {K V : Type} [DecidableEq K] : List (K × V) → K → Option V
  | [], _ => none
  | (k2, v) :: t, k => if k2 = k then some v else alistGet t k

/-- Insertion that overwrites the existing entry, mirroring HashMap::insert. -/
def alistInsert {K V : Type} [DecidableEq K] : List (K × V) → K → V → List (K × V)
  | [], k, v => [(k, v)]
  | (k2, v2) :: t, k, v => if k2 = k then (k, v) :: t else (k2, v2) :: alistInsert t k v

/-- The entry-or-default-then-mutate pattern of HashMap::entry().or_default():
the value at the key (the default d when the key is absent) is replaced by f
applied to it. -/
def alistModify {K V : Type} [DecidableEq K] : List (K × V) → K → (V → V) → V → List (K × V)
  | [], k, f, d => [(k, f d)]
  | (k2, v) :: t, k, f, d => if k2 = k then (k2, f v) :: t else (k2, v) :: alistModify t k f d

/-- The get_mut-then-mutate pattern: the value is modified only when the key is
present; an absent key leaves the map unchanged. -/
def alistUpdate {K V : Type} [DecidableEq K] : List (K × V) → K → (V → V) → List (K × V)
  | [], _, _ => []
  | (k2, v) :: t, k, f => if k2 = k then (k2, f v) :: t else (k2, v) :: alistUpdate t k f

/-- Removal of a key, mirroring HashMap::remove. -/
def alistRemove {K V : Type} [DecidableEq K] (l : List (K × V)) (k : K) : List (K × V) :=
  l.filter (fun p => p.1 ≠ k)

/-- Insertion into a set, mirroring HashSet::insert. -/
def setInsert {α : Type} [DecidableEq α] (s : List α) (a : α) : List α :=
  if a ∈ s then s else s ++ [a]

theorem alistGet_alistInsert {K V : Type} [DecidableEq K]
    (l : List (K × V)) (k k2 : K) (v : V) :
    alistGet (alistInsert l k v) k2 = if k = k2 then some v else alistGet l k2 := by
  induction l with
  | nil => simp [alistGet, alistInsert]
  | cons p t ih =>
    obtain ⟨k3, v3⟩ := p
    by_cases h3 : k3 = k <;> by_cases h2 : k = k2 <;>
      simp_all [alistGet, alistInsert]

theorem alistGet_alistModify {K V : Type} [DecidableEq K]
    (l : List (K × V)) (k k2 : K) (f : V → V) (d : V) :
    alistGet (alistModify l k f d) k2 =
      if k = k2 then some (f ((alistGet l k).getD d)) else alistGet l k2 := by
  induction l with
  | nil => simp [alistGet, alistModify]
  | cons p t ih =>
    obtain ⟨k3, v3⟩ := p
    by_cases h3 : k3 = k <;> by_cases h2 : k = k2 <;>
      simp_all [alistGet, alistModify]

theorem alistGet_alistUpdate {K V : Type} [DecidableEq K]
    (l : List (K × V)) (k k2 : K) (f : V → V) :
    alistGet (alistUpdate l k f) k2 =
      if k = k2 then (alistGet l k2).map f else alistGet l k2 := by
  induction l with
  | nil => simp [alistGet, alistUpdate]
  | cons p t ih =>
    obtain ⟨k3, v3⟩ := p
    by_cases h3 : k3 = k <;> by_cases h2 : k = k2 <;>
      simp_all [alistGet, alistUpdate]

theorem alistGet_alistRemove {K V : Type} [DecidableEq K]
    (l : List (K × V)) (k k2 : K) :
    alistGet (alistRemove l k) k2 = if k = k2 then none else alistGet l k2 := by
  induction l with
  | nil => simp [alistGet, alistRemove]
  | cons p t ih =>
    obtain ⟨k3, v3⟩ := p
    by_cases h3 : k3 = k <;> by_cases h2 : k = k2 <;>
      simp_all [alistGet, alistRemove]

theorem alistGet_isSome_iff {K V : Type} [DecidableEq K] (l : List (K × V)) (k : K) :
    (alistGet l k).isSome = true ↔ k ∈ l.map (fun p => p.1) := by
  induction l with
  | nil => simp [alistGet]
  | cons p t ih =>
    obtain ⟨k2, v⟩ := p
    by_cases h : k2 = k
    · subst h
      simp [alistGet]
    · have h2 : ¬ k = k2 := fun hk => h hk.symm
      simp [alistGet, h, h2, ih]

theorem mem_keys_alistModify {K V : Type} [DecidableEq K]
    (l : List (K × V)) (k k2 : K) (f : V → V) (d : V) :
    k2 ∈ (alistModify l k f d).map (fun p => p.1) ↔
      k2 = k ∨ k2 ∈ l.map (fun p => p.1) := by
  induction l with
  | nil => simp [alistModify, eq_comm]
  | cons p t ih =>
    obtain ⟨k3, v3⟩ := p
    by_cases h3 : k3 = k
    · subst h3
      rw [show alistModify ((k3, v3) :: t) k3 f d = (k3, f v3) :: t from by simp [alistModify]]
      simp only [List.map_cons, List.mem_cons]
      tauto
    · rw [show alistModify ((k3, v3) :: t) k f d = (k3, v3) :: alistModify t k f d from by
        simp [alistModify, h3]]
      simp only [List.map_cons, List.mem_cons, ih]
      tauto

theorem keys_alistUpdate {K V : Type} [DecidableEq K]
    (l : List (K × V)) (k : K) (f : V → V) :
    (alistUpdate l k f).map (fun p => p.1) = l.map (fun p => p.1) := by
  induction l with
  | nil => rfl
  | cons p t ih =>
    obtain ⟨k2, v⟩ := p
    by_cases h : k2 = k <;> simp_all [alistUpdate]

theorem mem_alistModify {K V : Type} [DecidableEq K]
    (l : List (K × V)) (k : K) (f : V → V) (d : V) (p : K × V)
    (hp : p ∈ alistModify l k f d) :
    p ∈ l ∨ ∃ v, p = (k, f v) ∧ (v = d ∨ (k, v) ∈ l) := by
  induction l with
  | nil =>
    simp only [alistModify, List.mem_singleton] at hp
    exact Or.inr ⟨d, hp, Or.inl rfl⟩
  | cons q t ih =>
    obtain ⟨k2, v2⟩ := q
    by_cases h2 : k2 = k
    · subst h2
      rw [show alistModify ((k2, v2) :: t) k2 f d = (k2, f v2) :: t from by
        simp [alistModify]] at hp
      rcases List.mem_cons.mp hp with hc | hc
      · exact Or.inr ⟨v2, hc, Or.inr (List.mem_cons_self _ _)⟩
      · exact Or.inl (List.mem_cons_of_mem _ hc)
    · rw [show alistModify ((k2, v2) :: t) k f d = (k2, v2) :: alistModify t k f d from by
        simp [alistModify, h2]] at hp
      rcases List.mem_cons.mp hp with hc | hc
      · exact Or.inl (by simp [hc])
      · rcases ih hc with hc2 | ⟨v, hv, hm⟩
        · exact Or.inl (List.mem_cons_of_mem _ hc2)
        · refine Or.inr ⟨v, hv, ?_⟩
          rcases hm with hm | hm
          · exact Or.inl hm
          · exact Or.inr (List.mem_cons_of_mem _ hm)

/-! ## Stable sort in descending key order

Rust Vec::sort_by with the comparator (a, b) -> cmp(key b, key a) is a
stable sort into non-increasing key order.  It is modelled by a stable
insertion sort: elements are inserted left to right, and each element is
placed after every already-placed element whose key is not smaller. -/

/-- Insert x into a list sorted by non-increasing key, after all elements
whose key is at least the key of x. -/
def insertByKeyDesc {α W : Type} [LinearOrder W] (key : α → W) (x : α) :
    List α → List α
  | [] => [x]
  | y :: t => if key y < key x then x :: y :: t else y :: insertByKeyDesc key x t

/-- Stable sort into non-increasing key order, mirroring sort_by with the
comparator (a, b) -> cmp(key b, key a). -/
def sortByKeyDesc {α W : Type} [LinearOrder W] (key : α → W) (l : List α) : List α :=
  l.foldl (fun acc x => insertByKeyDesc key x acc) []

/-- Non-increasing key order predicate. -/
def SortedDesc {α W : Type} [LinearOrder W] (key : α → W) (l : List α) : Prop :=
  l.Pairwise (fun a b => key b ≤ key a)

theorem insertByKeyDesc_perm {α W : Type} [LinearOrder W] (key : α → W) (x : α)
    (l : List α) : (insertByKeyDesc key x l).Perm (x :: l) := by
  induction l with
  | nil => simp [insertByKeyDesc]
  | cons y t ih =>
    by_cases h : key y < key x
    · simp [insertByKeyDesc, h]
    · simp only [insertByKeyDesc, if_neg h]
      exact (ih.cons y).trans (List.Perm.swap x y t)

theorem sortByKeyDesc_aux_perm {α W : Type} [LinearOrder W] (key : α → W) :
    ∀ (l acc : List α), (l.foldl (fun acc x => insertByKeyDesc key x acc) acc).Perm (acc ++ l) := by
  intro l
  induction l with
  | nil => simp
  | cons x t ih =>
    intro acc
    have h2 : (insertByKeyDesc key x acc ++ t).Perm (acc ++ x :: t) := by
      have h3 : (insertByKeyDesc key x acc ++ t).Perm ((x :: acc) ++ t) :=
        (insertByKeyDesc_perm key x acc).append_right t
      refine h3.trans ?_
      simpa using List.perm_middle.symm
    rw [List.foldl_cons]
    exact (ih (insertByKeyDesc key x acc)).trans h2

theorem sortByKeyDesc_perm {α W : Type} [LinearOrder W] (key : α → W) (l : List α) :
    (sortByKeyDesc key l).Perm l := by
  simpa [sortByKeyDesc] using sortByKeyDesc_aux_perm key l []

theorem insertByKeyDesc_sorted {α W : Type} [LinearOrder W] (key : α → W) (x : α)
    (l : List α) (h : SortedDesc key l) : SortedDesc key (insertByKeyDesc key x l) := by
  induction l with
  | nil => simp [insertByKeyDesc, SortedDesc]
  | cons y t ih =>
    rcases List.pairwise_cons.mp h with ⟨hy, ht⟩
    by_cases hlt : key y < key x
    · simp only [insertByKeyDesc, if_pos hlt]
      refine List.pairwise_cons.mpr ⟨?_, h⟩
      intro z hz
      rcases List.mem_cons.mp hz with h | h
      · subst h; exact le_of_lt hlt
      · exact (hy z h).trans (le_of_lt hlt)
    · simp only [insertByKeyDesc, if_neg hlt]
      refine List.pairwise_cons.mpr ⟨?_, ih ht⟩
      intro z hz
      have : z ∈ x :: t := ((insertByKeyDesc_perm key x t).mem_iff).mp hz
      rcases List.mem_cons.mp this with h | h
      · subst h; exact le_of_not_lt hlt
      · exact hy z h

theorem sortByKeyDesc_aux_sorted {α W : Type} [LinearOrder W] (key : α → W) :
    ∀ (l acc : List α), SortedDesc key acc →
      SortedDesc key (l.foldl (fun acc x => insertByKeyDesc key x acc) acc) := by
  intro l
  induction l with
  | nil => intro acc h; simpa using h
  | cons x t ih =>
    intro acc h
    exact ih (insertByKeyDesc key x acc) (insertByKeyDesc_sorted key x acc h)

theorem sortByKeyDesc_sorted {α W : Type} [LinearOrder W] (key : α → W) (l : List α) :
    SortedDesc key (sortByKeyDesc key l) :=
  sortByKeyDesc_aux_sorted key l [] (by simp [SortedDesc])

/-- Two lists that are permutations of each other, both in non-increasing key
order, with pairwise distinct keys, are equal.  This is the uniqueness part
of sorting used for determinism statements. -/
theorem sortedDesc_perm_eq {α W : Type} [LinearOrder W] (key : α → W) :
    ∀ (l1 l2 : List α), l1.Perm l2 → SortedDesc key l1 → SortedDesc key l2 →
      l1.Pairwise (fun a b => key a ≠ key b) → l1 = l2 := by
  intro l1
  induction l1 with
  | nil =>
    intro l2 hp _ _ _
    exact (hp.nil_eq).symm ▸ rfl
  | cons a t1 ih =>
    intro l2 hp h1 h2 hne
    cases l2 with
    | nil => exact absurd hp.symm.nil_eq (by simp)
    | cons b t2 =>
      rcases List.pairwise_cons.mp h1 with ⟨ha, ht1⟩
      rcases List.pairwise_cons.mp h2 with ⟨hb, ht2⟩
      rcases List.pairwise_cons.mp hne with ⟨hnea, hnet⟩
      have hab : a = b := by
        have hbmem : b ∈ a :: t1 := hp.mem_iff.mpr (List.mem_cons_self _ _)
        rcases List.mem_cons.mp hbmem with h | h
        · exact h.symm
        · have h1b : key b ≤ key a := ha b h
          have hamem : a ∈ b :: t2 := hp.mem_iff.mp (List.mem_cons_self _ _)
          rcases List.mem_cons.mp hamem with h2a | h2a
          · exact h2a
          · have h2b : key a ≤ key b := hb a h2a
            exact absurd (le_antisymm h2b h1b) (hnea b h)
      subst hab
      have := ih t2 hp.cons_inv ht1 ht2 hnet
      rw [this]

/-! ## Tags (knowledge_base/tag.rs) -/

/-- EntityId and LocationId are 128-bit random identifiers; they are modelled
as naturals supplied by the caller. -/
abbrev EntityId := Nat

abbrev LocationId := Nat

/-- Tag, the node type of the knowledge graph. -/
inductive Tag where
  | entity (id : EntityId)
  | location (id : LocationId)
  | concept (s : String)
  | faction (s : String)
  | eventType (s : String)
  | relationType (s : String)
  | custom (s : String)
deriving DecidableEq, Repr

/-- Canonical string form of a tag, mirroring Tag::as_string. -/
def Tag.asString : Tag → String
  | .entity id => "entity:" ++ toString id
  | .location id => "location:" ++ toString id
  | .concept s => "concept:" ++ s
  | .faction s => "faction:" ++ s
  | .eventType s => "event:" ++ s
  | .relationType s => "relation:" ++ s
  | .custom s => "custom:" ++ s

/-- Lexicographic comparison of character lists by code point; for the ASCII
strings produced by Tag::as_string this agrees with the Rust String ordering. -/
def charListLtb : List Char → List Char → Bool
  | [], [] => false
  | [], _ :: _ => true
  | _ :: _, [] => false
  | a :: s1, b :: s2 =>
    if a.toNat < b.toNat then true
    else if b.toNat < a.toNat then false
    else charListLtb s1 s2

/-- String comparison used by the Ord implementation for Tag. -/
def strLtb (a b : String) : Bool := charListLtb a.data b.data

/-- The total order on tags defined by comparing canonical string forms,
mirroring the Ord implementation for Tag. -/
def tagLtb (a b : Tag) : Bool := strLtb a.asString b.asString

/-! ## Facts (knowledge_base/fact.rs) -/

abbrev FactId := Nat

/-- WorldTime is modelled as an opaque timestamp value; the core never
inspects it. -/
abbrev WorldTime := Nat

inductive RelationshipType where
  | family | friend | enemy | romantic | professional | rival | mentor | acquaintance
deriving DecidableEq, Repr

inductive SecretSeverity where
  | minor | moderate | major | critical
deriving DecidableEq, Repr

inductive FactSource where
  | initial | llmGenerated | playerAction | worldEvent | dialogueRevealed
deriving DecidableEq, Repr

/-- FactType with f32 sentiment modelled over W. -/
inductive FactType (W : Type) where
  | relationship (entityA entityB : EntityId) (rel : RelationshipType) (sentiment : W)
  | eventFact (description : String) (participants : List EntityId) (location : Option LocationId)
  | secret (holder : EntityId) (severity : SecretSeverity)
  | traitFact (entity : EntityId) (traitName : String)
  | lore (category : String)
  | quest (questId : Nat)
  | generic
deriving DecidableEq

/-- A fact record.  The tag HashSet is modelled as a list of tags. -/
structure Fact (W : Type) where
  id : FactId
  content : String
  factType : FactType W
  tags : List Tag
  timestamp : WorldTime
  importance : W
  knownToPlayer : Bool
  revealed : Bool
  expiresAt : Option WorldTime
  source : FactSource
deriving DecidableEq

/-- Fact::reveal - set revealed and force known_to_player. -/
def Fact.reveal {W : Type} (f : Fact W) : Fact W :=
  { f with revealed := true, knownToPlayer := true }

/-! ## Knowledge graph (knowledge_base/graph.rs) -/

inductive AssociationType where
  | direct | coOccurrence | semantic | temporal
deriving DecidableEq, Repr

/-- A weighted directed edge to a target tag. -/
structure Association (W : Type) where
  target : Tag
  weight : W
  associationType : AssociationType
deriving DecidableEq

/-- The knowledge graph.  Each HashMap field is modelled as an association
list, each HashSet of fact ids as a duplicate-free list. -/
structure KnowledgeGraph (W : Type) where
  facts : List (FactId × Fact W)
  tagToFacts : List (Tag × List FactId)
  associations : List (Tag × List (Association W))
  factByEntity : List (EntityId × List FactId)

/-- KnowledgeGraph::new. -/
def emptyGraph {W : Type} : KnowledgeGraph W := ⟨[], [], [], []⟩

/-- KnowledgeGraph::add_fact: index the fact under each of its tags, register
referenced entities by fact type and entity tags, then insert the fact
(overwriting any fact stored under the same id). -/
def addFact {W : Type} (g : KnowledgeGraph W) (fact : Fact W) : KnowledgeGraph W :=
  let id := fact.id
  let tagIdx := fact.tags.foldl
    (fun m tag => alistModify m tag (fun s => setInsert s id) []) g.tagToFacts
  let entIdx :=
    match fact.factType with
    | .relationship a b _ _ =>
        alistModify (alistModify g.factByEntity a (fun s => setInsert s id) [])
          b (fun s => setInsert s id) []
    | .secret holder _ => alistModify g.factByEntity holder (fun s => setInsert s id) []
    | .traitFact e _ => alistModify g.factByEntity e (fun s => setInsert s id) []
    | _ => g.factByEntity
  let entIdx2 := fact.tags.foldl
    (fun m tag =>
      match tag with
      | Tag.entity eid => alistModify m eid (fun s => setInsert s id) []
      | _ => m) entIdx
  { facts := alistInsert g.facts id fact
    tagToFacts := tagIdx
    associations := g.associations
    factByEntity := entIdx2 }

/-- KnowledgeGraph::remove_fact: drop the fact and strip its id from the tag
and entity indices (the index keys themselves are never removed).  The
returned Option of the source is dropped; only the state transition is
modelled. -/
def removeFact {W : Type} (g : KnowledgeGraph W) (id : FactId) : KnowledgeGraph W :=
  match alistGet g.facts id with
  | none => g
  | some fact =>
    let tagIdx := fact.tags.foldl
      (fun m tag => alistUpdate m tag (fun s => s.filter (fun i => i ≠ id))) g.tagToFacts
    let entIdx := g.factByEntity.map (fun p => (p.1, p.2.filter (fun i => i ≠ id)))
    { facts := alistRemove g.facts id
      tagToFacts := tagIdx
      associations := g.associations
      factByEntity := entIdx }

/-- KnowledgeGraph::get_fact. -/
def getFact {W : Type} (g : KnowledgeGraph W) (id : FactId) : Option (Fact W) :=
  alistGet g.facts id

/-- KnowledgeGraph::facts_by_tag: resolve the id set of a tag to facts.
The iteration order of the id HashSet is modelled by the stored list order. -/
def factsByTag {W : Type} (g : KnowledgeGraph W) (tag : Tag) : List (Fact W) :=
  ((alistGet g.tagToFacts tag).getD []).filterMap (fun id => getFact g id)

/-- KnowledgeGraph::reveal_fact: reveal the stored fact when present.  The
boolean result of the source is dropped; only the state transition is
modelled. -/
def revealFact {W : Type} (g : KnowledgeGraph W) (id : FactId) : KnowledgeGraph W :=
  { g with facts := alistUpdate g.facts id Fact.reveal }

/-- KnowledgeGraph::all_tags (the keys of tag_to_facts). -/
def allTags {W : Type} (g : KnowledgeGraph W) : List Tag :=
  g.tagToFacts.map (fun p => p.1)

/-- KnowledgeGraph::tag_count. -/
def tagCount {W : Type} (g : KnowledgeGraph W) : Nat :=
  g.tagToFacts.length

/-- KnowledgeGraph::has_tag (contains_key on tag_to_facts). -/
def hasTag {W : Type} (g : KnowledgeGraph W) (tag : Tag) : Bool :=
  (alistGet g.tagToFacts tag).isSome

/-- The f32 clamp(0.0, 1.0) call. -/
def clampW {W : Type} [LinearOrderedField W] (w : W) : W := min (max w 0) 1

/-- Update the first association with the given target by averaging its weight
with the new weight, mirroring the iter_mut().find branch of add_association. -/
def updateFirstAssoc {W : Type} [LinearOrderedField W] :
    List (Association W) → Tag → W → List (Association W)
  | [], _, _ => []
  | a :: rest, tgt, w =>
    if a.target = tgt then { a with weight := (a.weight + w) / 2 } :: rest
    else a :: updateFirstAssoc rest tgt w

/-- KnowledgeGraph::add_association: if an edge to the target already exists
its weight becomes the average of old and new (no clamping, kind unchanged);
otherwise a new edge with clamped weight is appended. -/
def addAssociation {W : Type} [LinearOrderedField W] (g : KnowledgeGraph W)
    (from2 tgt : Tag) (weight : W) (assocType : AssociationType) : KnowledgeGraph W :=
  { g with
    associations := alistModify g.associations from2
      (fun l =>
        if l.any (fun a => a.target = tgt) then updateFirstAssoc l tgt weight
        else l ++ [⟨tgt, clampW weight, assocType⟩]) [] }

/-- KnowledgeGraph::add_bidirectional_association. -/
def addBidirectionalAssociation {W : Type} [LinearOrderedField W] (g : KnowledgeGraph W)
    (tagA tagB : Tag) (weight : W) (assocType : AssociationType) : KnowledgeGraph W :=
  addAssociation (addAssociation g tagA tagB weight assocType) tagB tagA weight assocType

/-- KnowledgeGraph::get_associations. -/
def getAssociations {W : Type} (g : KnowledgeGraph W) (tag : Tag) : List (Association W) :=
  (alistGet g.associations tag).getD []

/-- Lookup of the association with a given target, mirroring the
iter().find(|a| a.target == t) pattern of the source and its tests. -/
def findTargetAssoc {W : Type} (l : List (Association W)) (tgt : Tag) : Option (Association W) :=
  l.find? (fun a => a.target = tgt)

/-- The canonically ordered tag pairs of one fact's tag list: all pairs
(i, j) with i < j, each pair ordered by the tag order. -/
def pairsOfList : List Tag → List (Tag × Tag)
  | [] => []
  | t :: rest => rest.map (fun u => if tagLtb t u then (t, u) else (u, t)) ++ pairsOfList rest

/-- The co-occurrence counting loop of build_co_occurrence_associations:
count each canonical tag pair across all facts.  The input is the list of
tag lists of the stored facts; the count map is an association list whose
entry order does not influence the derived edge set. -/
def countPairs (tagLists : List (List Tag)) : List ((Tag × Tag) × Nat) :=
  tagLists.foldl
    (fun m tl => (pairsOfList tl).foldl (fun m2 p => alistModify m2 p (fun c => c + 1) 0) m) []

/-- The edge-creation loop of build_co_occurrence_associations: for each
counted pair add a bidirectional co-occurrence association with weight
min(ln(count), 1).  The pairs argument is the iteration order of the count
HashMap; lnW models the f32 natural logarithm on a count. -/
def buildCoOccurFromPairs {W : Type} [LinearOrderedField W] (lnW : Nat → W)
    (g : KnowledgeGraph W) (pairs : List ((Tag × Tag) × Nat)) : KnowledgeGraph W :=
  pairs.foldl
    (fun g2 p =>
      addBidirectionalAssociation g2 p.1.1 p.1.2 (min (lnW p.2) 1) AssociationType.coOccurrence) g

/-- KnowledgeGraph::build_co_occurrence_associations. -/
def buildCoOccurrenceAssociations {W : Type} [LinearOrderedField W] (lnW : Nat → W)
    (g : KnowledgeGraph W) : KnowledgeGraph W :=
  buildCoOccurFromPairs lnW g (countPairs (g.facts.map (fun p => p.2.tags)))

/-! ## Activation state (context_assembler/activation.rs) -/

/-- ActivationState: a sparse energy map over tags, modelled as an
association list.  The list order models the HashMap iteration order. -/
def addEnergy {W : Type} [LinearOrderedField W] (s : List (Tag × W)) (tag : Tag) (e : W) :
    List (Tag × W) :=
  alistModify s tag (fun cur => cur + e) 0

/-- ActivationState::get_energy (0 for a missing tag). -/
def getEnergy {W : Type} [LinearOrderedField W] (s : List (Tag × W)) (tag : Tag) : W :=
  (alistGet s tag).getD 0

/-- ActivationState::hot_tags: entries with energy at least the threshold,
stably sorted by descending energy. -/
def hotTags {W : Type} [LinearOrderedField W] (threshold : W) (s : List (Tag × W)) :
    List (Tag × W) :=
  sortByKeyDesc (fun p => p.2) (s.filter (fun p => threshold ≤ p.2))

/-- ActivationState::prune: retain entries with energy at least the threshold. -/
def pruneState {W : Type} [LinearOrderedField W] (threshold : W) (s : List (Tag × W)) :
    List (Tag × W) :=
  s.filter (fun p => threshold ≤ p.2)

/-! ## Context assembler (context_assembler/mod.rs) -/

/-- ActivationConfig. -/
structure ActivationConfig (W : Type) where
  initialEnergy : W
  decayRate : W
  maxDepth : Nat
  energyThreshold : W
  maxFacts : Nat

/-- One depth step of spread_activation: from every tag whose current energy
reaches the threshold, push energy times weight times decay along every
outgoing association into a fresh delta map, then merge the delta map into
the state by addition.  Both loops are additive, so their iteration order
does not influence the resulting energy values. -/
def stepActivation {W : Type} [LinearOrderedField W] (g : KnowledgeGraph W)
    (cfg : ActivationConfig W) (s : List (Tag × W)) : List (Tag × W) :=
  let newEnergies := s.foldl
    (fun acc p =>
      if p.2 < cfg.energyThreshold then acc
      else (getAssociations g p.1).foldl
        (fun acc2 a => addEnergy acc2 a.target (p.2 * a.weight * cfg.decayRate)) acc) []
  newEnergies.foldl (fun st p => addEnergy st p.1 p.2) s

/-- The for-loop over 0..max_depth in spread_activation. -/
def iterateSteps {W : Type} [LinearOrderedField W] (g : KnowledgeGraph W)
    (cfg : ActivationConfig W) : Nat → List (Tag × W) → List (Tag × W)
  | 0, s => s
  | n + 1, s => iterateSteps g cfg n (stepActivation g cfg s)

/-- ContextAssembler::spread_activation: seed every trigger tag with the
initial energy, then run max_depth spreading steps. -/
def spreadActivation {W : Type} [LinearOrderedField W] (g : KnowledgeGraph W)
    (cfg : ActivationConfig W) (triggerTags : List Tag) : List (Tag × W) :=
  let s0 := triggerTags.foldl (fun st tag => addEnergy st tag cfg.initialEnergy) []
  iterateSteps g cfg cfg.maxDepth s0

/-- The fact-scoring loop of collect_facts: for every hot tag and every fact
under it, add energy times importance to the score of the fact id.  The
resulting association list is the canonical entry list of the fact_scores
HashMap; two runs may iterate it in different orders. -/
def scoreEntries {W : Type} [LinearOrderedField W] (g : KnowledgeGraph W)
    (hot : List (Tag × W)) : List (FactId × W) :=
  hot.foldl
    (fun m te => (factsByTag g te.1).foldl
      (fun m2 f => alistModify m2 f.id (fun cur => cur + te.2 * f.importance) 0) m) []

/-- The selection stage of collect_facts applied to one iteration order of the
fact_scores map: stable sort by descending score, take max_facts, resolve
ids to facts. -/
def collectFactsFrom {W : Type} [LinearOrderedField W] (g : KnowledgeGraph W)
    (maxFacts : Nat) (order : List (FactId × W)) : List (Fact W) :=
  ((sortByKeyDesc (fun p => p.2) order).take maxFacts).filterMap (fun p => getFact g p.1)

/-! ## Character context (context_assembler/mod.rs, game_rules entities) -/

/-- StatusEffectType is modelled by the debug name of the variant, which is
the only view extract_character_context takes of it. -/
abbrev StatusEffectType := String

/-- An active status effect (components.rs). -/
structure ActiveStatusEffect where
  effectType : StatusEffectType
  remainingDuration : Option Nat
  stackCount : Nat
  source : Option EntityId
deriving DecidableEq, Repr

/-- StatsComponent (components.rs); i32 fields modelled as integers. -/
structure StatsComponent where
  strength : Int
  dexterity : Int
  constitution : Int
  intelligence : Int
  wisdom : Int
  charisma : Int
  currentHp : Int
  maxHp : Int
  currentMana : Int
  maxMana : Int
deriving DecidableEq, Repr

/-- The character fields read by extract_character_context (character.rs). -/
structure Character where
  id : EntityId
  name : String
  title : Option String
  stats : StatsComponent
  statusEffects : List ActiveStatusEffect
  personalityTraits : List String
deriving DecidableEq, Repr

/-- CharacterContext (context_assembler/mod.rs). -/
structure CharacterContext where
  name : String
  title : Option String
  currentHpPercent : Nat
  activeStatuses : List String
  personality : List String
deriving DecidableEq, Repr

/-- The saturating f32-to-u32 cast (the as-u32 conversion): truncate toward
zero, negative values saturate at 0, values above u32::MAX saturate there. -/
def f32AsU32 (q : Rat) : Nat :=
  if q < 0 then 0 else min (Int.toNat ⌊q⌋) (2 ^ 32 - 1)

/-- The per-character record built by extract_character_context: hp percent is
current_hp / max_hp * 100 cast to u32 when max_hp > 0, and 100 otherwise. -/
def characterContextOf (c : Character) : CharacterContext :=
  { name := c.name
    title := c.title
    currentHpPercent :=
      if 0 < c.stats.maxHp then
        f32AsU32 ((c.stats.currentHp : Rat) / (c.stats.maxHp : Rat) * 100)
      else 100
    activeStatuses := c.statusEffects.map (fun e => e.effectType)
    personality := c.personalityTraits }

/-- ContextAssembler::extract_character_context: resolve each involved entity
against the world snapshot and build a record per resolved character.  The
world snapshot is modelled by its character map. -/
def extractCharacterContext (world : List (EntityId × Character))
    (involved : List EntityId) : List CharacterContext :=
  (involved.filterMap (fun id => alistGet world id)).map characterContextOf

/-- The rounding function named by the specification for hp_percent
(round half away from even ties are irrelevant here: round half up). -/
def specRound (q : Rat) : Int := round q

/-! ## Operation sequences and invariants -/

/-- One add_association call. -/
structure AssocCall (W : Type) where
  src : Tag
  dst : Tag
  weight : W
  assocType : AssociationType

/-- Apply a sequence of add_association calls. -/
def applyAssocCalls {W : Type} [LinearOrderedField W] (g : KnowledgeGraph W)
    (calls : List (AssocCall W)) : KnowledgeGraph W :=
  calls.foldl (fun g2 c => addAssociation g2 c.src c.dst c.weight c.assocType) g

/-- The mutating operations of the knowledge graph.  The pairs argument of a
build_co_occurrence_associations call is derived from the graph itself, so
the operation carries no data. -/
inductive Op (W : Type) where
  | addFactOp (f : Fact W)
  | removeFactOp (id : FactId)
  | addAssociationOp (src dst : Tag) (w : W) (k : AssociationType)
  | addBidirectionalOp (tagA tagB : Tag) (w : W) (k : AssociationType)
  | revealFactOp (id : FactId)
  | buildCoOccurrenceOp

/-- Apply one graph operation. -/
def applyOp {W : Type} [LinearOrderedField W] (lnW : Nat → W) (g : KnowledgeGraph W) :
    Op W → KnowledgeGraph W
  | .addFactOp f => addFact g f
  | .removeFactOp id => removeFact g id
  | .addAssociationOp s d w k => addAssociation g s d w k
  | .addBidirectionalOp a b w k => addBidirectionalAssociation g a b w k
  | .revealFactOp id => revealFact g id
  | .buildCoOccurrenceOp => buildCoOccurrenceAssociations lnW g

/-- Apply a sequence of graph operations. -/
def applyOps {W : Type} [LinearOrderedField W] (lnW : Nat → W) (g : KnowledgeGraph W)
    (ops : List (Op W)) : KnowledgeGraph W :=
  ops.foldl (applyOp lnW) g

/-- Every stored association weight lies in the unit interval. -/
def WeightsOk {W : Type} [LinearOrderedField W] (g : KnowledgeGraph W) : Prop :=
  ∀ p ∈ g.associations, ∀ a ∈ p.2, 0 ≤ a.weight ∧ a.weight ≤ 1

/-- Every adjacency list has pairwise distinct targets: at most one edge per
ordered pair of tags. -/
def UniqueTargets {W : Type} (g : KnowledgeGraph W) : Prop :=
  ∀ p ∈ g.associations, (p.2.map (fun a => a.target)).Nodup

/-- Every stored revealed fact is known to the player. -/
def InvRevealKnown {W : Type} (g : KnowledgeGraph W) : Prop :=
  ∀ id f, getFact g id = some f → f.revealed = true → f.knownToPlayer = true

theorem clampW_eq_self {W : Type} [LinearOrderedField W] (w : W) (h0 : 0 ≤ w) (h1 : w ≤ 1) :
    clampW w = w := by
  simp [clampW, max_eq_left h0, min_eq_left h1]

/-! ## Claim C1: spreading activation on the two-edge chain -/

/-- The three tags of the chain; the claim labels them A, B, C. -/
def tagA : Tag := Tag.entity 1

def tagB : Tag := Tag.entity 2

def tagC : Tag := Tag.entity 3

/-- The graph with the two associations A to B and B to C, both of weight
0.8, and nothing else. -/
def graphABC : KnowledgeGraph Rat :=
  addAssociation (addAssociation emptyGraph tagA tagB (4 / 5) AssociationType.direct)
    tagB tagC (4 / 5) AssociationType.direct

/-- The configuration of the claim: initial energy 1, decay 0.5, depth 2,
threshold 0.01. -/
def cfgDepth2 : ActivationConfig Rat := ⟨1, 1 / 2, 2, 1 / 100, 20⟩

/-- The activation state spread from the trigger set containing only A. -/
def stateDepth2 : List (Tag × Rat) := spreadActivation graphABC cfgDepth2 [tagA]

theorem stateDepth2_eval : stateDepth2 = [(tagA, 1), (tagB, 4 / 5), (tagC, 4 / 25)] := by
  have hc : clampW ((4 : Rat) / 5) = 4 / 5 := clampW_eq_self _ (by norm_num) (by norm_num)
  norm_num [stateDepth2, spreadActivation, iterateSteps, stepActivation, addEnergy,
    getAssociations, graphABC, addAssociation, emptyGraph, cfgDepth2, alistModify,
    alistGet, tagA, tagB, tagC, hc, updateFirstAssoc, List.foldl]

/-- Claim C1, counterexample: on the two-edge chain with depth 2, the energy
of B returned by spread_activation is 0.8, not the 0.4 stated by the claim
(A re-fires at the second depth step and doubles the energy of B). -/
theorem c1_counterexample :
    getEnergy stateDepth2 tagB = 4 / 5 ∧ ¬ getEnergy stateDepth2 tagB = 2 / 5 := by
  rw [stateDepth2_eval]
  norm_num [getEnergy, alistGet, tagA, tagB, tagC]

/-- Claim C1, amended: with the configuration initial_energy 1, decay 0.5,
max_depth 2, threshold 0.01 on the chain A to B to C with weights 0.8, the
returned energies are A = 1, B = 0.8, C = 0.16, with ordering B above C
above zero. -/
theorem c1_amended :
    getEnergy stateDepth2 tagA = 1 ∧ getEnergy stateDepth2 tagB = 4 / 5 ∧
      getEnergy stateDepth2 tagC = 4 / 25 ∧
      getEnergy stateDepth2 tagC < getEnergy stateDepth2 tagB ∧
      0 < getEnergy stateDepth2 tagC := by
  rw [stateDepth2_eval]
  norm_num [getEnergy, alistGet, tagA, tagB, tagC]

/-! ## Weight and target lemmas for add_association -/

theorem clampW_mem {W : Type} [LinearOrderedField W] (w : W) :
    0 ≤ clampW w ∧ clampW w ≤ 1 :=
  ⟨le_min (le_max_right w 0) zero_le_one, min_le_right _ _⟩

theorem updateFirstAssoc_weightsOk {W : Type} [LinearOrderedField W]
    (l : List (Association W)) (tgt : Tag) (w : W)
    (hw0 : 0 ≤ w) (hw1 : w ≤ 1) (hl : ∀ a ∈ l, 0 ≤ a.weight ∧ a.weight ≤ 1) :
    ∀ a ∈ updateFirstAssoc l tgt w, 0 ≤ a.weight ∧ a.weight ≤ 1 := by
  induction l with
  | nil => simp [updateFirstAssoc]
  | cons b rest ih =>
    intro a ha
    by_cases hb : b.target = tgt
    · rw [show updateFirstAssoc (b :: rest) tgt w =
          { b with weight := (b.weight + w) / 2 } :: rest from by
        simp [updateFirstAssoc, hb]] at ha
      rcases List.mem_cons.mp ha with h | h
      · obtain ⟨h0, h1⟩ := hl b (List.mem_cons_self _ _)
        subst h
        refine ⟨div_nonneg (add_nonneg h0 hw0) (by norm_num), ?_⟩
        rw [div_le_one (by norm_num)]
        linarith
      · exact hl a (List.mem_cons_of_mem _ h)
    · rw [show updateFirstAssoc (b :: rest) tgt w = b :: updateFirstAssoc rest tgt w from by
        simp [updateFirstAssoc, hb]] at ha
      rcases List.mem_cons.mp ha with h | h
      · subst h
        exact hl a (List.mem_cons_self _ _)
      · exact ih (fun a2 ha2 => hl a2 (List.mem_cons_of_mem _ ha2)) a h

theorem updateFirstAssoc_targets {W : Type} [LinearOrderedField W]
    (l : List (Association W)) (tgt : Tag) (w : W) :
    (updateFirstAssoc l tgt w).map (fun a => a.target) = l.map (fun a => a.target) := by
  induction l with
  | nil => rfl
  | cons b rest ih =>
    by_cases hb : b.target = tgt <;> simp_all [updateFirstAssoc]

theorem addAssociation_inv {W : Type} [LinearOrderedField W]
    (g : KnowledgeGraph W) (s d : Tag) (w : W) (k : AssociationType)
    (hg : WeightsOk g) (hu : UniqueTargets g) (hw0 : 0 ≤ w) (hw1 : w ≤ 1) :
    WeightsOk (addAssociation g s d w k) ∧ UniqueTargets (addAssociation g s d w k) := by
  have key : ∀ l : List (Association W),
      (∀ a ∈ l, 0 ≤ a.weight ∧ a.weight ≤ 1) → (l.map (fun a => a.target)).Nodup →
      (∀ a ∈ (if l.any (fun a => a.target = d) then updateFirstAssoc l d w
          else l ++ [⟨d, clampW w, k⟩]), 0 ≤ a.weight ∧ a.weight ≤ 1) ∧
        (((if l.any (fun a => a.target = d) then updateFirstAssoc l d w
          else l ++ [⟨d, clampW w, k⟩]).map (fun a => a.target)).Nodup) := by
    intro l hlw hlt
    by_cases hany : l.any (fun a => a.target = d)
    · rw [if_pos hany]
      refine ⟨updateFirstAssoc_weightsOk l d w hw0 hw1 hlw, ?_⟩
      rw [updateFirstAssoc_targets]
      exact hlt
    · rw [if_neg hany]
      constructor
      · intro a ha
        rcases List.mem_append.mp ha with h | h
        · exact hlw a h
        · rw [List.mem_singleton.mp h]
          exact clampW_mem w
      · rw [List.map_append]
        have hd : d ∉ l.map (fun a => a.target) := by
          intro hmem
          rcases List.mem_map.mp hmem with ⟨a, hal, hat⟩
          exact hany (List.any_eq_true.mpr ⟨a, hal, by simp [hat]⟩)
        simp only [List.map_cons, List.map_nil]
        rw [List.nodup_append]
        refine ⟨hlt, List.nodup_singleton d, ?_⟩
        intro x hx hx2
        rw [List.mem_singleton.mp hx2] at hx
        exact hd hx
  constructor
  · intro p hp a ha
    rcases mem_alistModify g.associations s _ [] p hp with h | ⟨v, hv, hm⟩
    · exact hg p h a ha
    · subst hv
      rcases hm with h | h
      · subst h
        simp only at ha
        exact (key [] (by simp) (by simp)).1 a ha
      · exact (key v (hg (s, v) h) (hu (s, v) h)).1 a ha
  · intro p hp
    rcases mem_alistModify g.associations s _ [] p hp with h | ⟨v, hv, hm⟩
    · exact hu p h
    · subst hv
      rcases hm with h | h
      · subst h
        simp only
        exact (key [] (by simp) (by simp)).2
      · exact (key v (hg (s, v) h) (hu (s, v) h)).2

theorem applyAssocCalls_inv {W : Type} [LinearOrderedField W] :
    ∀ (calls : List (AssocCall W)) (g : KnowledgeGraph W),
      WeightsOk g → UniqueTargets g →
      (∀ c ∈ calls, 0 ≤ c.weight ∧ c.weight ≤ 1) →
      WeightsOk (applyAssocCalls g calls) ∧ UniqueTargets (applyAssocCalls g calls) := by
  intro calls
  induction calls with
  | nil => intro g hg hu _; exact ⟨hg, hu⟩
  | cons c cs ih =>
    intro g hg hu hcw
    obtain ⟨hw0, hw1⟩ := hcw c (List.mem_cons_self _ _)
    obtain ⟨hg2, hu2⟩ := addAssociation_inv g c.src c.dst c.weight c.assocType hg hu hw0 hw1
    have := ih (addAssociation g c.src c.dst c.weight c.assocType) hg2 hu2
      (fun c2 hc2 => hcw c2 (List.mem_cons_of_mem _ hc2))
    simpa [applyAssocCalls, List.foldl_cons] using this

/-! ## Claim C2: weight clamping under add_association -/

/-- Two calls on the same ordered pair, the second with weight 3: the update
path averages without clamping. -/
def c2Graph : KnowledgeGraph Rat :=
  applyAssocCalls emptyGraph
    [⟨tagA, tagB, 1 / 2, AssociationType.direct⟩, ⟨tagA, tagB, 3, AssociationType.direct⟩]

/-- Claim C2, counterexample: after add_association(A, B, 0.5) and then
add_association(A, B, 3.0) the stored weight is 1.75, outside the unit
interval, because the update path averages the raw argument without
clamping.  Only fresh insertions clamp. -/
theorem c2_counterexample :
    findTargetAssoc (getAssociations c2Graph tagA) tagB =
      some ⟨tagB, 7 / 4, AssociationType.direct⟩ ∧ ¬ WeightsOk c2Graph := by
  have hc : clampW ((1 : Rat) / 2) = 1 / 2 := clampW_eq_self _ (by norm_num) (by norm_num)
  have heval : getAssociations c2Graph tagA =
      [⟨tagB, 7 / 4, AssociationType.direct⟩] := by
    norm_num [c2Graph, applyAssocCalls, addAssociation, emptyGraph, getAssociations,
      alistModify, alistGet, hc, updateFirstAssoc, List.foldl]
  have hmem : (tagA, [(⟨tagB, 7 / 4, AssociationType.direct⟩ : Association Rat)]) ∈
      c2Graph.associations := by
    norm_num [c2Graph, applyAssocCalls, addAssociation, emptyGraph,
      alistModify, alistGet, hc, updateFirstAssoc, List.foldl]
  refine ⟨by rw [heval]; simp [findTargetAssoc], ?_⟩
  intro hok
  have := (hok _ hmem ⟨tagB, 7 / 4, AssociationType.direct⟩ (List.mem_singleton.mpr rfl)).2
  norm_num at this

theorem addAssociation_uniqueTargets {W : Type} [LinearOrderedField W]
    (g : KnowledgeGraph W) (s d : Tag) (w : W) (k : AssociationType)
    (hu : UniqueTargets g) : UniqueTargets (addAssociation g s d w k) := by
  have key : ∀ l : List (Association W), (l.map (fun a => a.target)).Nodup →
      (((if l.any (fun a => a.target = d) then updateFirstAssoc l d w
        else l ++ [⟨d, clampW w, k⟩]).map (fun a => a.target)).Nodup) := by
    intro l hlt
    by_cases hany : l.any (fun a => a.target = d)
    · rw [if_pos hany, updateFirstAssoc_targets]
      exact hlt
    · rw [if_neg hany, List.map_append]
      have hd : d ∉ l.map (fun a => a.target) := by
        intro hmem
        rcases List.mem_map.mp hmem with ⟨a, hal, hat⟩
        exact hany (List.any_eq_true.mpr ⟨a, hal, by simp [hat]⟩)
      simp only [List.map_cons, List.map_nil]
      rw [List.nodup_append]
      refine ⟨hlt, List.nodup_singleton d, ?_⟩
      intro x hx hx2
      rw [List.mem_singleton.mp hx2] at hx
      exact hd hx
  intro p hp
  rcases mem_alistModify g.associations s _ [] p hp with h | ⟨v, hv, hm⟩
  · exact hu p h
  · subst hv
    rcases hm with h | h
    · subst h
      simp only
      exact key [] (by simp)
    · exact key v (hu (s, v) h)

theorem applyAssocCalls_uniqueTargets {W : Type} [LinearOrderedField W] :
    ∀ (calls : List (AssocCall W)) (g : KnowledgeGraph W),
      UniqueTargets g → UniqueTargets (applyAssocCalls g calls) := by
  intro calls
  induction calls with
  | nil => intro g hu; exact hu
  | cons c cs ih =>
    intro g hu
    have hu2 := addAssociation_uniqueTargets g c.src c.dst c.weight c.assocType hu
    simpa [applyAssocCalls, List.foldl_cons] using
      ih (addAssociation g c.src c.dst c.weight c.assocType) hu2

/-- Claim C2, amended: provided every add_association call passes a weight in
the unit interval, every stored weight stays in the unit interval after
every prefix of the call sequence, starting from any graph whose stored
weights already satisfy this; and at most one edge per ordered pair exists
after every prefix, unconditionally on the weights passed. -/
theorem c2_amended (g : KnowledgeGraph Rat) (calls : List (AssocCall Rat))
    (hg : WeightsOk g) (hu : UniqueTargets g) :
    ∀ n, UniqueTargets (applyAssocCalls g (calls.take n)) ∧
      ((∀ c ∈ calls, 0 ≤ c.weight ∧ c.weight ≤ 1) →
        WeightsOk (applyAssocCalls g (calls.take n))) := by
  intro n
  refine ⟨applyAssocCalls_uniqueTargets (calls.take n) g hu, fun hcw => ?_⟩
  exact (applyAssocCalls_inv (calls.take n) g hg hu
    (fun c hc => hcw c (List.take_subset n calls hc))).1

/-- Witness for the amended claim C2 at a concrete instance. -/
theorem c2_witness :
    (WeightsOk (emptyGraph : KnowledgeGraph Rat) ∧
      UniqueTargets (emptyGraph : KnowledgeGraph Rat)) ∧
    (UniqueTargets (applyAssocCalls emptyGraph
        ([(⟨tagA, tagB, 1, AssociationType.direct⟩ : AssocCall Rat)].take 1)) ∧
      WeightsOk (applyAssocCalls emptyGraph
        ([(⟨tagA, tagB, 1, AssociationType.direct⟩ : AssocCall Rat)].take 1))) := by
  have hg : WeightsOk (emptyGraph : KnowledgeGraph Rat) := by simp [WeightsOk, emptyGraph]
  have hu : UniqueTargets (emptyGraph : KnowledgeGraph Rat) := by simp [UniqueTargets, emptyGraph]
  have hcw : ∀ c ∈ [(⟨tagA, tagB, 1, AssociationType.direct⟩ : AssocCall Rat)],
      0 ≤ c.weight ∧ c.weight ≤ 1 := by simp
  obtain ⟨h1, h2⟩ := c2_amended emptyGraph
    [(⟨tagA, tagB, 1, AssociationType.direct⟩ : AssocCall Rat)] hg hu 1
  exact ⟨⟨hg, hu⟩, h1, h2 hcw⟩

/-! ## Claim C6: association update semantics -/

theorem getAssociations_addAssociation_same {W : Type} [LinearOrderedField W]
    (g : KnowledgeGraph W) (s d : Tag) (w : W) (k : AssociationType) :
    getAssociations (addAssociation g s d w k) s =
      (if (getAssociations g s).any (fun a => a.target = d)
        then updateFirstAssoc (getAssociations g s) d w
        else getAssociations g s ++ [⟨d, clampW w, k⟩]) := by
  simp [getAssociations, addAssociation, alistGet_alistModify]

theorem updateFirstAssoc_append {W : Type} [LinearOrderedField W]
    (l : List (Association W)) (d : Tag) (w w0 : W) (k : AssociationType)
    (h : ∀ a ∈ l, a.target ≠ d) :
    updateFirstAssoc (l ++ [⟨d, w0, k⟩]) d w = l ++ [⟨d, (w0 + w) / 2, k⟩] := by
  induction l with
  | nil => simp [updateFirstAssoc]
  | cons b rest ih =>
    have hb : b.target ≠ d := h b (List.mem_cons_self _ _)
    simp only [List.cons_append, updateFirstAssoc, if_neg hb]
    have := ih (fun a ha => h a (List.mem_cons_of_mem _ ha))
    simpa using this

theorem findTargetAssoc_append {W : Type} (l : List (Association W)) (x : Association W)
    (d : Tag) (h : ∀ a ∈ l, a.target ≠ d) (hx : x.target = d) :
    findTargetAssoc (l ++ [x]) d = some x := by
  induction l with
  | nil => simp [findTargetAssoc, List.find?, hx]
  | cons b rest ih =>
    have hb : b.target ≠ d := h b (List.mem_cons_self _ _)
    have := ih (fun a ha => h a (List.mem_cons_of_mem _ ha))
    simp only [findTargetAssoc] at this ⊢
    rw [List.cons_append, List.find?_cons_of_neg _ (by simp [hb])]
    exact this

theorem filterTarget_append {W : Type} (l : List (Association W)) (x : Association W)
    (d : Tag) (h : ∀ a ∈ l, a.target ≠ d) (hx : x.target = d) :
    (l ++ [x]).filter (fun a => a.target = d) = [x] := by
  rw [List.filter_append]
  have h1 : l.filter (fun a => a.target = d) = [] := by
    rw [List.filter_eq_nil_iff]
    intro a ha
    simp [h a ha]
  rw [h1]
  simp [List.filter, hx]

/-- Claim C6, amended: starting from any graph with no edge from s to d,
two add_association calls on (s, d) with weights w1 then w2 leave exactly
one edge from s to d; its kind is the kind of the first call, and its
weight is (clamp(w1) + w2) / 2 - the first weight is clamped on insertion
before the second call averages against it.  For w1 in the unit interval
this equals (w1 + w2) / 2. -/
theorem c6_amended (g : KnowledgeGraph Rat) (s d : Tag) (w1 w2 : Rat)
    (k1 k2 : AssociationType) (h : ∀ a ∈ getAssociations g s, a.target ≠ d) :
    findTargetAssoc
        (getAssociations (addAssociation (addAssociation g s d w1 k1) s d w2 k2) s) d =
      some ⟨d, (clampW w1 + w2) / 2, k1⟩ ∧
    ((getAssociations (addAssociation (addAssociation g s d w1 k1) s d w2 k2) s).filter
        (fun a => a.target = d)).length = 1 := by
  have hany1 : (getAssociations g s).any (fun a => a.target = d) = false := by
    rw [List.any_eq_false]
    intro a ha
    simp [h a ha]
  have h1 : getAssociations (addAssociation g s d w1 k1) s =
      getAssociations g s ++ [⟨d, clampW w1, k1⟩] := by
    rw [getAssociations_addAssociation_same, hany1]
    simp
  have hany2 : (getAssociations (addAssociation g s d w1 k1) s).any
      (fun a => a.target = d) = true := by
    rw [h1, List.any_append]
    simp
  have h2 : getAssociations (addAssociation (addAssociation g s d w1 k1) s d w2 k2) s =
      getAssociations g s ++ [⟨d, (clampW w1 + w2) / 2, k1⟩] := by
    rw [getAssociations_addAssociation_same, hany2, if_pos rfl, h1,
      updateFirstAssoc_append (getAssociations g s) d w2 (clampW w1) k1 h]
  rw [h2]
  constructor
  · exact findTargetAssoc_append _ _ _ h rfl
  · rw [filterTarget_append _ _ _ h rfl]
    rfl

/-- Witness for the amended claim C6 at a concrete instance. -/
theorem c6_witness :
    (∀ a ∈ getAssociations (emptyGraph : KnowledgeGraph Rat) tagA, a.target ≠ tagB) ∧
    findTargetAssoc
        (getAssociations
          (addAssociation (addAssociation emptyGraph tagA tagB 1 AssociationType.direct)
            tagA tagB 0 AssociationType.semantic) tagA) tagB =
      some ⟨tagB, (clampW (1 : Rat) + 0) / 2, AssociationType.direct⟩ := by
  have h : ∀ a ∈ getAssociations (emptyGraph : KnowledgeGraph Rat) tagA, a.target ≠ tagB := by
    simp [getAssociations, emptyGraph, alistGet]
  exact ⟨h, (c6_amended emptyGraph tagA tagB 1 0 AssociationType.direct
    AssociationType.semantic h).1⟩

/-- The two calls of the concrete counterexample: first weight 2 (clamped to
1 on insertion), then weight 0. -/
def c6Graph : KnowledgeGraph Rat :=
  addAssociation (addAssociation emptyGraph tagA tagB 2 AssociationType.direct)
    tagA tagB 0 AssociationType.direct

/-- Claim C6, counterexample: with w1 = 2 and w2 = 0 the stored weight is
(clamp(2) + 0) / 2 = 0.5, not (w1 + w2) / 2 = 1 as the claim states for
arbitrary weights. -/
theorem c6_counterexample :
    findTargetAssoc (getAssociations c6Graph tagA) tagB =
      some ⟨tagB, 1 / 2, AssociationType.direct⟩ ∧
      ¬ ((1 : Rat) / 2 = (2 + 0) / 2) := by
  have hc : clampW (2 : Rat) = 1 := by
    rw [clampW, max_eq_left (by norm_num), min_eq_right (by norm_num)]
  have h : ∀ a ∈ getAssociations (emptyGraph : KnowledgeGraph Rat) tagA, a.target ≠ tagB := by
    simp [getAssociations, emptyGraph, alistGet]
  have := (c6_amended emptyGraph tagA tagB 2 0 AssociationType.direct
    AssociationType.direct h).1
  rw [hc] at this
  norm_num at this
  refine ⟨by rw [show c6Graph = addAssociation (addAssociation emptyGraph tagA tagB 2
    AssociationType.direct) tagA tagB 0 AssociationType.direct from rfl]; exact this, by norm_num⟩

/-! ## Claim C10: removing the last fact of a tag keeps the tag registered -/

theorem keys_foldl_alistUpdate {K V B : Type} [DecidableEq K] (fn : B → V → V) :
    ∀ (tags : List B) (keyOf : B → K) (m : List (K × V)),
      ((tags.foldl (fun m2 t => alistUpdate m2 (keyOf t) (fn t)) m).map (fun p => p.1)) =
        m.map (fun p => p.1) := by
  intro tags
  induction tags with
  | nil => intro keyOf m; rfl
  | cons t rest ih =>
    intro keyOf m
    rw [List.foldl_cons, ih keyOf (alistUpdate m (keyOf t) (fn t)), keys_alistUpdate]

theorem keys_removeFact {W : Type} (g : KnowledgeGraph W) (id : FactId) :
    (removeFact g id).tagToFacts.map (fun p => p.1) = g.tagToFacts.map (fun p => p.1) := by
  rcases h : alistGet g.facts id with _ | fact
  · simp [removeFact, h]
  · simp only [removeFact, h]
    exact keys_foldl_alistUpdate (fun _ s => s.filter (fun i => i ≠ id)) fact.tags
      (fun t => t) g.tagToFacts

theorem mem_keys_foldl_alistModify_mono {K V B : Type} [DecidableEq K]
    (fn : B → V → V) (d : V) (k : K) :
    ∀ (tags : List B) (keyOf : B → K) (m : List (K × V)),
      k ∈ m.map (fun p => p.1) →
      k ∈ ((tags.foldl (fun m2 t => alistModify m2 (keyOf t) (fn t) d) m).map (fun p => p.1)) := by
  intro tags
  induction tags with
  | nil => intro keyOf m h; exact h
  | cons t rest ih =>
    intro keyOf m h
    rw [List.foldl_cons]
    exact ih keyOf _ ((mem_keys_alistModify _ _ _ _ _).mpr (Or.inr h))

theorem mem_keys_foldl_alistModify {K V B : Type} [DecidableEq K]
    (fn : B → V → V) (d : V) (T : B) :
    ∀ (tags : List B) (keyOf : B → K) (m : List (K × V)), T ∈ tags →
      keyOf T ∈ ((tags.foldl (fun m2 t => alistModify m2 (keyOf t) (fn t) d) m).map
        (fun p => p.1)) := by
  intro tags
  induction tags with
  | nil => intro keyOf m h; cases h
  | cons t rest ih =>
    intro keyOf m h
    rw [List.foldl_cons]
    rcases List.mem_cons.mp h with h | h
    · subst h
      exact mem_keys_foldl_alistModify_mono fn d (keyOf T) rest keyOf _
        ((mem_keys_alistModify _ _ _ _ _).mpr (Or.inl rfl))
    · exact ih keyOf _ h

theorem mem_keys_addFact {W : Type} (g : KnowledgeGraph W) (f : Fact W) (T : Tag)
    (hT : T ∈ f.tags) :
    T ∈ (addFact g f).tagToFacts.map (fun p => p.1) := by
  simp only [addFact]
  exact mem_keys_foldl_alistModify (fun _ s => setInsert s f.id) [] T f.tags
    (fun t => t) g.tagToFacts hT

/-- Claim C10: after adding a fact carrying tag T and removing it again, the
tag T is still registered - has_tag is true, T is listed by all_tags, and
the tag count is unchanged by the removal - because remove_fact empties the
id set of the tag but never deletes the key from tag_to_facts. -/
theorem c10_theorem (g : KnowledgeGraph Rat) (f : Fact Rat) (T : Tag) (hT : T ∈ f.tags) :
    hasTag (removeFact (addFact g f) f.id) T = true ∧
      T ∈ allTags (removeFact (addFact g f) f.id) ∧
      tagCount (removeFact (addFact g f) f.id) = tagCount (addFact g f) := by
  have hkeys := keys_removeFact (addFact g f) f.id
  have hmem : T ∈ (addFact g f).tagToFacts.map (fun p => p.1) := mem_keys_addFact g f T hT
  have hmem2 : T ∈ (removeFact (addFact g f) f.id).tagToFacts.map (fun p => p.1) := by
    rw [hkeys]; exact hmem
  refine ⟨(alistGet_isSome_iff _ _).mpr hmem2, hmem2, ?_⟩
  have := congrArg List.length hkeys
  simpa [tagCount, List.length_map] using this

/-- Witness for claim C10 at a concrete instance. -/
theorem c10_witness :
    Tag.entity 5 ∈ [Tag.entity 5] ∧
      hasTag (removeFact (addFact (emptyGraph : KnowledgeGraph Rat)
        ⟨1, "w", FactType.generic, [Tag.entity 5], 0, 1, true, false, none,
          FactSource.initial⟩) 1) (Tag.entity 5) = true := by
  have hT : Tag.entity 5 ∈
      (⟨1, "w", FactType.generic, [Tag.entity 5], 0, 1, true, false, none,
        FactSource.initial⟩ : Fact Rat).tags := by simp
  exact ⟨List.mem_singleton.mpr rfl,
    (c10_theorem emptyGraph ⟨1, "w", FactType.generic, [Tag.entity 5], 0, 1, true, false,
      none, FactSource.initial⟩ (Tag.entity 5) hT).1⟩

/-! ## Claim C3: index consistency under re-add of an existing id -/

/-- A fact with id 1 carrying one tag. -/
def factT1 : Fact Rat :=
  ⟨1, "first", FactType.generic, [Tag.entity 7], 0, 1 / 2, true, false, none, FactSource.initial⟩

/-- A different fact with the same id 1 and no tags. -/
def factT2 : Fact Rat :=
  ⟨1, "second", FactType.generic, [], 0, 1 / 2, true, false, none, FactSource.initial⟩

/-- Adding factT1 and then factT2 under the same id: add_fact overwrites the
stored fact but never strips the old tag index entries. -/
def c3Graph : KnowledgeGraph Rat := addFact (addFact emptyGraph factT1) factT2

/-- Claim C3, failing evaluation: after add_fact of a fact with id 1 and tag
set containing Entity 7, then add_fact of a fact with the same id 1 and an
empty tag set, the index tag_to_facts still maps Entity 7 to the id 1
although the live fact with id 1 no longer carries that tag: the claimed
index-consistency invariant is violated because add_fact overwrites without
re-indexing. -/
theorem c3_code_bug_eval :
    alistGet c3Graph.tagToFacts (Tag.entity 7) = some [1] ∧
      getFact c3Graph 1 = some factT2 ∧ Tag.entity 7 ∉ factT2.tags := by
  refine ⟨?_, ?_, by simp [factT2]⟩ <;>
    norm_num [c3Graph, addFact, factT1, factT2, emptyGraph, alistModify, alistInsert,
      alistGet, setInsert, getFact, List.foldl]

/-! ## Claim C9: hot tags and prune on the three-tag state -/

def tagHigh : Tag := Tag.concept "High"

def tagMedium : Tag := Tag.concept "Medium"

def tagLow : Tag := Tag.concept "Low"

/-- The activation state of the claim, with energies 0.9, 0.5, 0.1. -/
def stateHML : List (Tag × Rat) := [(tagHigh, 9 / 10), (tagMedium, 1 / 2), (tagLow, 1 / 10)]

/-- Claim C9: for every iteration order of the state with energies High 0.9,
Medium 0.5, Low 0.1, hot_tags(0.4) is exactly the list (High, 0.9),
(Medium, 0.5) in that order - the threshold is inclusive and the sort is by
descending energy - and prune(0.5) keeps exactly the High and Medium
entries (the threshold entry is kept, strictly smaller ones are dropped). -/
theorem c9_theorem (o : List (Tag × Rat)) (ho : o.Perm stateHML) :
    hotTags (2 / 5) o = [(tagHigh, 9 / 10), (tagMedium, 1 / 2)] ∧
      (pruneState (1 / 2) o).Perm [(tagHigh, 9 / 10), (tagMedium, 1 / 2)] ∧
      (tagLow, 1 / 10) ∉ pruneState (1 / 2) o := by
  have hfilter : stateHML.filter (fun p => decide ((2 : Rat) / 5 ≤ p.2)) =
      [(tagHigh, 9 / 10), (tagMedium, 1 / 2)] := by
    norm_num [stateHML, List.filter_cons]
  have hfo : (o.filter (fun p => decide ((2 : Rat) / 5 ≤ p.2))).Perm
      [(tagHigh, 9 / 10), (tagMedium, 1 / 2)] := by
    refine (ho.filter _).trans ?_
    rw [hfilter]
  have hsortperm : (hotTags (2 / 5) o).Perm [(tagHigh, 9 / 10), (tagMedium, 1 / 2)] := by
    simp only [hotTags]
    exact (sortByKeyDesc_perm (fun p => p.2) _).trans hfo
  have htargetsorted : SortedDesc (fun p : Tag × Rat => p.2)
      [(tagHigh, 9 / 10), (tagMedium, 1 / 2)] := by
    simp only [SortedDesc]
    refine List.Pairwise.cons ?_
      (List.Pairwise.cons (fun b hb => absurd hb (List.not_mem_nil b)) List.Pairwise.nil)
    intro b hb
    rw [List.mem_singleton] at hb
    subst hb
    norm_num
  have htargetne : ([(tagHigh, 9 / 10), (tagMedium, 1 / 2)] : List (Tag × Rat)).Pairwise
      (fun a b => a.2 ≠ b.2) := by
    refine List.Pairwise.cons ?_
      (List.Pairwise.cons (fun b hb => absurd hb (List.not_mem_nil b)) List.Pairwise.nil)
    intro b hb
    rw [List.mem_singleton] at hb
    subst hb
    norm_num
  have hsorted1 : SortedDesc (fun p : Tag × Rat => p.2) (hotTags (2 / 5) o) := by
    simp only [hotTags]
    exact sortByKeyDesc_sorted _ _
  have hsortne : (hotTags (2 / 5) o).Pairwise (fun a b : Tag × Rat => a.2 ≠ b.2) :=
    (List.Perm.pairwise_iff (fun hxy => hxy.symm) hsortperm).mpr htargetne
  have heq : hotTags (2 / 5) o = [(tagHigh, 9 / 10), (tagMedium, 1 / 2)] :=
    sortedDesc_perm_eq (fun p : Tag × Rat => p.2) _ _ hsortperm hsorted1 htargetsorted hsortne
  have hprunefilter : stateHML.filter (fun p => decide ((1 : Rat) / 2 ≤ p.2)) =
      [(tagHigh, 9 / 10), (tagMedium, 1 / 2)] := by
    norm_num [stateHML, List.filter_cons]
  have hprune : (pruneState (1 / 2) o).Perm [(tagHigh, 9 / 10), (tagMedium, 1 / 2)] := by
    simp only [pruneState]
    refine (ho.filter _).trans ?_
    rw [hprunefilter]
  refine ⟨heq, hprune, ?_⟩
  intro hmem
  have hm2 := hprune.mem_iff.mp hmem
  rcases List.mem_cons.mp hm2 with h | h
  · have := congrArg Prod.snd h
    norm_num at this
  · rw [List.mem_singleton] at h
    have := congrArg Prod.snd h
    norm_num at this

/-- Witness for claim C9 at the identity iteration order. -/
theorem c9_witness :
    stateHML.Perm stateHML ∧
      hotTags (2 / 5) stateHML = [(tagHigh, 9 / 10), (tagMedium, 1 / 2)] :=
  ⟨List.Perm.refl _, (c9_theorem stateHML (List.Perm.refl _)).1⟩

/-! ## Claim C4: determinism of collect_facts -/

/-- Claim C4, amended: collect_facts is deterministic whenever the computed
fact scores are pairwise distinct: any two iteration orders of the
fact_scores map yield the same ordered fact list.  With ties the order of
tied facts follows the HashMap iteration order, which Rust randomizes per
map, so tie-breaking is not deterministic. -/
theorem c4_amended (g : KnowledgeGraph Rat) (s : List (Tag × Rat)) (threshold : Rat)
    (maxFacts : Nat) (o1 o2 : List (FactId × Rat))
    (h1 : o1.Perm (scoreEntries g (hotTags threshold s)))
    (h2 : o2.Perm (scoreEntries g (hotTags threshold s)))
    (hne : (scoreEntries g (hotTags threshold s)).Pairwise (fun a b => a.2 ≠ b.2)) :
    collectFactsFrom g maxFacts o1 = collectFactsFrom g maxFacts o2 := by
  have hp1 : (sortByKeyDesc (fun p : FactId × Rat => p.2) o1).Perm
      (sortByKeyDesc (fun p : FactId × Rat => p.2) o2) :=
    ((sortByKeyDesc_perm _ o1).trans (h1.trans h2.symm)).trans (sortByKeyDesc_perm _ o2).symm
  have hne1 : (sortByKeyDesc (fun p : FactId × Rat => p.2) o1).Pairwise
      (fun a b => a.2 ≠ b.2) :=
    (List.Perm.pairwise_iff (fun hxy => hxy.symm)
      ((sortByKeyDesc_perm _ o1).trans h1)).mpr hne
  have heq : sortByKeyDesc (fun p : FactId × Rat => p.2) o1 =
      sortByKeyDesc (fun p : FactId × Rat => p.2) o2 :=
    sortedDesc_perm_eq (fun p => p.2) _ _ hp1 (sortByKeyDesc_sorted _ o1)
      (sortByKeyDesc_sorted _ o2) hne1
  simp [collectFactsFrom, heq]

/-- Witness for the amended claim C4 on the empty graph and empty state. -/
theorem c4_witness :
    (([] : List (FactId × Rat)).Perm (scoreEntries emptyGraph (hotTags 0 [])) ∧
      (scoreEntries (emptyGraph : KnowledgeGraph Rat) (hotTags 0 [])).Pairwise
        (fun a b => a.2 ≠ b.2)) ∧
    collectFactsFrom (emptyGraph : KnowledgeGraph Rat) 20 [] =
      collectFactsFrom emptyGraph 20 [] :=
  ⟨⟨List.Perm.refl [], List.Pairwise.nil⟩,
    c4_amended emptyGraph [] 0 20 [] [] (List.Perm.refl [])
      (List.Perm.refl []) List.Pairwise.nil⟩

/-- A fact with id 1 under the tag Entity 9, importance 0.5. -/
def factS1 : Fact Rat :=
  ⟨1, "tie one", FactType.generic, [Tag.entity 9], 0, 1 / 2, true, false, none,
    FactSource.initial⟩

/-- A fact with id 2 under the same tag and the same importance. -/
def factS2 : Fact Rat :=
  ⟨2, "tie two", FactType.generic, [Tag.entity 9], 0, 1 / 2, true, false, none,
    FactSource.initial⟩

/-- The two-fact graph of the tie counterexample. -/
def c4Graph : KnowledgeGraph Rat := addFact (addFact emptyGraph factS1) factS2

/-- The activation state giving both facts the same score. -/
def c4State : List (Tag × Rat) := [(Tag.entity 9, 1)]

/-- Claim C4, counterexample: both facts score 0.5 under the single hot tag;
for two iteration orders of the fact_scores map that are permutations of
each other the stable sort preserves the respective input orders, so the
two runs of collect_facts return differently ordered lists. -/
theorem c4_counterexample :
    ([((1 : FactId), (1 : Rat) / 2), (2, 1 / 2)]).Perm
        (scoreEntries c4Graph (hotTags (1 / 2) c4State)) ∧
      ([((2 : FactId), (1 : Rat) / 2), (1, 1 / 2)]).Perm
        (scoreEntries c4Graph (hotTags (1 / 2) c4State)) ∧
      collectFactsFrom c4Graph 20 [((1 : FactId), (1 : Rat) / 2), (2, 1 / 2)] ≠
        collectFactsFrom c4Graph 20 [((2 : FactId), (1 : Rat) / 2), (1, 1 / 2)] := by
  have hhot : hotTags (1 / 2) c4State = [(Tag.entity 9, 1)] := by
    norm_num [hotTags, c4State, List.filter_cons, sortByKeyDesc, insertByKeyDesc, List.foldl]
  have hE : scoreEntries c4Graph (hotTags (1 / 2) c4State) =
      [((1 : FactId), (1 : Rat) / 2), (2, 1 / 2)] := by
    rw [hhot]
    norm_num [scoreEntries, factsByTag, c4Graph, addFact, factS1, factS2, emptyGraph,
      getFact, alistModify, alistInsert, alistGet, setInsert, List.foldl]
  refine ⟨by rw [hE], by rw [hE]; exact List.Perm.swap _ _ _, ?_⟩
  have h1 : collectFactsFrom c4Graph 20 [((1 : FactId), (1 : Rat) / 2), (2, 1 / 2)] =
      [factS1, factS2] := by
    norm_num [collectFactsFrom, sortByKeyDesc, insertByKeyDesc, List.foldl, List.take,
      List.filterMap_cons, getFact, c4Graph, addFact, factS1, factS2, emptyGraph,
      alistModify, alistInsert, alistGet, setInsert]
  have h2 : collectFactsFrom c4Graph 20 [((2 : FactId), (1 : Rat) / 2), (1, 1 / 2)] =
      [factS2, factS1] := by
    norm_num [collectFactsFrom, sortByKeyDesc, insertByKeyDesc, List.foldl, List.take,
      List.filterMap_cons, getFact, c4Graph, addFact, factS1, factS2, emptyGraph,
      alistModify, alistInsert, alistGet, setInsert]
  rw [h1, h2]
  intro hcontra
  have hhead := congrArg List.head? hcontra
  simp [factS1, factS2] at hhead

/-! ## Claim C5: hp percent in the character context -/

/-- A character at 2 of 3 hit points. -/
def heroC : Character :=
  ⟨1, "Hero", none, ⟨10, 10, 10, 10, 10, 10, 2, 3, 0, 0⟩, [], []⟩

/-- Claim C5, counterexample: at 2 of 3 hit points the built record carries
hp percent 66 - the f32-to-u32 cast truncates toward zero - while
round(2 / 3 * 100) = 67 as the claim states. -/
theorem c5_counterexample :
    (extractCharacterContext [(1, heroC)] [1]).map (fun c => c.currentHpPercent) = [66] ∧
      specRound ((2 : Rat) / 3 * 100) = 67 ∧ ((66 : Int) ≠ 67) := by
  have hfloor : ⌊(200 : Rat) / 3⌋ = (66 : Int) := by
    rw [Int.floor_eq_iff]
    norm_num
  have hhp : (characterContextOf heroC).currentHpPercent = 66 := by
    simp only [characterContextOf, heroC]
    rw [if_pos (by norm_num), show ((2 : Int) : Rat) / ((3 : Int) : Rat) * 100 =
      (200 : Rat) / 3 from by norm_num]
    rw [f32AsU32, if_neg (by norm_num), hfloor]
    decide
  refine ⟨?_, ?_, by norm_num⟩
  · simp [extractCharacterContext, alistGet, hhp]
  · rw [specRound, round_eq, show (2 : Rat) / 3 * 100 + 1 / 2 = 403 / 6 from by norm_num,
      Int.floor_eq_iff]
    norm_num

/-- Claim C5, amended: for every world snapshot and involved-entity list,
each involved entity resolving to a character c with 0 ≤ current_hp ≤
max_hp yields a record whose hp_percent is the floor (truncation toward
zero) of current_hp / max_hp * 100 when max_hp > 0, and 100 otherwise -
not the rounded value. -/
theorem c5_amended (world : List (EntityId × Character)) (involved : List EntityId)
    (id : EntityId) (c : Character) (hw : alistGet world id = some c)
    (hi : id ∈ involved) (h0 : 0 ≤ c.stats.currentHp)
    (h1 : c.stats.currentHp ≤ c.stats.maxHp) :
    characterContextOf c ∈ extractCharacterContext world involved ∧
      (characterContextOf c).currentHpPercent =
        (if 0 < c.stats.maxHp
          then (⌊(c.stats.currentHp : Rat) / (c.stats.maxHp : Rat) * 100⌋).toNat
          else 100) := by
  constructor
  · exact List.mem_map.mpr ⟨c, List.mem_filterMap.mpr ⟨id, hi, hw⟩, rfl⟩
  · simp only [characterContextOf]
    by_cases hm : 0 < c.stats.maxHp
    · rw [if_pos hm, if_pos hm]
      have hmq : (0 : Rat) < (c.stats.maxHp : Rat) := by exact_mod_cast hm
      have hq0 : (0 : Rat) ≤ (c.stats.currentHp : Rat) / (c.stats.maxHp : Rat) * 100 := by
        have : (0 : Rat) ≤ (c.stats.currentHp : Rat) := by exact_mod_cast h0
        positivity
      have hq100 : (c.stats.currentHp : Rat) / (c.stats.maxHp : Rat) * 100 ≤ 100 := by
        have hle : (c.stats.currentHp : Rat) / (c.stats.maxHp : Rat) ≤ 1 := by
          rw [div_le_one hmq]
          exact_mod_cast h1
        calc (c.stats.currentHp : Rat) / (c.stats.maxHp : Rat) * 100 ≤ 1 * 100 :=
              mul_le_mul_of_nonneg_right hle (by norm_num)
          _ = 100 := by norm_num
      rw [f32AsU32, if_neg (not_lt.mpr hq0)]
      have hfle : ⌊(c.stats.currentHp : Rat) / (c.stats.maxHp : Rat) * 100⌋ ≤ 100 := by
        have := Int.floor_le_floor hq100
        simpa using this
      have : (⌊(c.stats.currentHp : Rat) / (c.stats.maxHp : Rat) * 100⌋).toNat ≤ 2 ^ 32 - 1 := by
        have h2 : (⌊(c.stats.currentHp : Rat) / (c.stats.maxHp : Rat) * 100⌋).toNat ≤
            (100 : Int).toNat := Int.toNat_le_toNat hfle
        have h3 : ((100 : Int)).toNat = 100 := rfl
        omega
      rw [min_eq_left this]
    · rw [if_neg hm, if_neg hm]

/-- Witness for the amended claim C5 at a concrete instance. -/
theorem c5_witness :
    (alistGet [((1 : EntityId), heroC)] 1 = some heroC ∧ (1 : EntityId) ∈ [(1 : EntityId)] ∧
      (0 : Int) ≤ heroC.stats.currentHp ∧ heroC.stats.currentHp ≤ heroC.stats.maxHp) ∧
      characterContextOf heroC ∈ extractCharacterContext [((1 : EntityId), heroC)] [1] := by
  have hw : alistGet [((1 : EntityId), heroC)] 1 = some heroC := by simp [alistGet]
  have hi : (1 : EntityId) ∈ [(1 : EntityId)] := by simp
  have h0 : (0 : Int) ≤ heroC.stats.currentHp := by decide
  have h1 : heroC.stats.currentHp ≤ heroC.stats.maxHp := by decide
  exact ⟨⟨hw, hi, h0, h1⟩, (c5_amended [((1 : EntityId), heroC)] [1] 1 heroC hw hi h0 h1).1⟩

/-! ## Claim C8: reveal monotonicity -/

theorem getFact_addFact {W : Type} (g : KnowledgeGraph W) (f : Fact W) (id : FactId) :
    getFact (addFact g f) id = if f.id = id then some f else getFact g id := by
  simp only [getFact, addFact]
  exact alistGet_alistInsert g.facts f.id id f

theorem getFact_removeFact {W : Type} (g : KnowledgeGraph W) (id2 id : FactId) :
    getFact (removeFact g id2) id = if id2 = id then none else getFact g id := by
  rcases h : alistGet g.facts id2 with _ | fact
  · simp only [removeFact, h]
    by_cases hid : id2 = id
    · subst hid
      simp [getFact, h]
    · simp [hid]
  · simp only [removeFact, h, getFact]
    exact alistGet_alistRemove g.facts id2 id

theorem getFact_revealFact {W : Type} (g : KnowledgeGraph W) (id2 id : FactId) :
    getFact (revealFact g id2) id =
      if id2 = id then (getFact g id).map Fact.reveal else getFact g id := by
  simp only [getFact, revealFact]
  exact alistGet_alistUpdate g.facts id2 id Fact.reveal

theorem facts_addAssociation {W : Type} [LinearOrderedField W] (g : KnowledgeGraph W)
    (s d : Tag) (w : W) (k : AssociationType) : (addAssociation g s d w k).facts = g.facts :=
  rfl

theorem facts_addBidirectional {W : Type} [LinearOrderedField W] (g : KnowledgeGraph W)
    (a b : Tag) (w : W) (k : AssociationType) :
    (addBidirectionalAssociation g a b w k).facts = g.facts :=
  rfl

theorem facts_buildCoOccurFromPairs {W : Type} [LinearOrderedField W] (lnW : Nat → W) :
    ∀ (pairs : List ((Tag × Tag) × Nat)) (g : KnowledgeGraph W),
      (buildCoOccurFromPairs lnW g pairs).facts = g.facts := by
  intro pairs
  induction pairs with
  | nil => intro g; rfl
  | cons p rest ih =>
    intro g
    simp only [buildCoOccurFromPairs, List.foldl_cons]
    exact ih _

theorem getFact_applyOp_untouched {W : Type} [LinearOrderedField W] (lnW : Nat → W)
    (g : KnowledgeGraph W) (op : Op W) (id : FactId) (f : Fact W)
    (hf : getFact g id = some f) (hrev : f.revealed = true)
    (hrm : op ≠ Op.removeFactOp id)
    (hadd : ∀ f2, op = Op.addFactOp f2 → f2.id ≠ id) :
    ∃ f2, getFact (applyOp lnW g op) id = some f2 ∧ f2.revealed = true := by
  cases op with
  | addFactOp f2 =>
    have hne : f2.id ≠ id := hadd f2 rfl
    refine ⟨f, ?_, hrev⟩
    rw [applyOp, getFact_addFact, if_neg hne]
    exact hf
  | removeFactOp id2 =>
    have hne : id2 ≠ id := fun h => hrm (by rw [h])
    refine ⟨f, ?_, hrev⟩
    rw [applyOp, getFact_removeFact, if_neg hne]
    exact hf
  | addAssociationOp s d w k =>
    refine ⟨f, ?_, hrev⟩
    simp only [applyOp, getFact, facts_addAssociation]
    exact hf
  | addBidirectionalOp a b w k =>
    refine ⟨f, ?_, hrev⟩
    simp only [applyOp, getFact, facts_addBidirectional]
    exact hf
  | revealFactOp id2 =>
    by_cases hid : id2 = id
    · refine ⟨f.reveal, ?_, rfl⟩
      rw [applyOp, getFact_revealFact, if_pos hid, hf]
      rfl
    · refine ⟨f, ?_, hrev⟩
      rw [applyOp, getFact_revealFact, if_neg hid]
      exact hf
  | buildCoOccurrenceOp =>
    refine ⟨f, ?_, hrev⟩
    simp only [applyOp, getFact, buildCoOccurrenceAssociations, facts_buildCoOccurFromPairs]
    exact hf

theorem invRevealKnown_applyOp {W : Type} [LinearOrderedField W] (lnW : Nat → W)
    (g : KnowledgeGraph W) (op : Op W) (hg : InvRevealKnown g)
    (hop : ∀ f, op = Op.addFactOp f → f.revealed = true → f.knownToPlayer = true) :
    InvRevealKnown (applyOp lnW g op) := by
  cases op with
  | addFactOp f2 =>
    intro id f h hrev
    rw [applyOp, getFact_addFact] at h
    by_cases hid : f2.id = id
    · rw [if_pos hid] at h
      cases h
      exact hop f2 rfl hrev
    · rw [if_neg hid] at h
      exact hg id f h hrev
  | removeFactOp id2 =>
    intro id f h hrev
    rw [applyOp, getFact_removeFact] at h
    by_cases hid : id2 = id
    · rw [if_pos hid] at h
      cases h
    · rw [if_neg hid] at h
      exact hg id f h hrev
  | addAssociationOp s d w k =>
    intro id f h hrev
    simp only [applyOp, getFact, facts_addAssociation] at h
    exact hg id f h hrev
  | addBidirectionalOp a b w k =>
    intro id f h hrev
    simp only [applyOp, getFact, facts_addBidirectional] at h
    exact hg id f h hrev
  | revealFactOp id2 =>
    intro id f h hrev
    rw [applyOp, getFact_revealFact] at h
    by_cases hid : id2 = id
    · rw [if_pos hid] at h
      rcases hold : getFact g id with _ | f0
      · rw [hold] at h
        cases h
      · rw [hold] at h
        simp only [Option.map_some'] at h
        cases h
        rfl
    · rw [if_neg hid] at h
      exact hg id f h hrev
  | buildCoOccurrenceOp =>
    intro id f h hrev
    simp only [applyOp, getFact, buildCoOccurrenceAssociations,
      facts_buildCoOccurFromPairs] at h
    exact hg id f h hrev

/-- Claim C8, amended: provided every fact handed to add_fact satisfies
revealed implies known_to_player (builder-constructed facts do), the
invariant that every stored revealed fact is known to the player holds
after any operation sequence; and a revealed fact stays revealed across
every subsequent operation that neither removes it nor re-adds a fact
under the same id.  Re-adding under the same id overwrites the stored
fact, so add_fact is excluded only for the fact's own id. -/
theorem c8_amended (lnW : Nat → Rat) (ops : List (Op Rat)) :
    ∀ g : KnowledgeGraph Rat, InvRevealKnown g →
      (∀ f, Op.addFactOp f ∈ ops → f.revealed = true → f.knownToPlayer = true) →
      InvRevealKnown (applyOps lnW g ops) ∧
        (∀ id f, getFact g id = some f → f.revealed = true →
          (∀ op ∈ ops, op ≠ Op.removeFactOp id ∧
            ∀ f2, op = Op.addFactOp f2 → f2.id ≠ id) →
          ∃ f2, getFact (applyOps lnW g ops) id = some f2 ∧ f2.revealed = true) := by
  induction ops with
  | nil =>
    intro g hg _
    exact ⟨hg, fun id f hf hrev _ => ⟨f, hf, hrev⟩⟩
  | cons op rest ih =>
    intro g hg hops
    have hop1 : ∀ f, op = Op.addFactOp f → f.revealed = true → f.knownToPlayer = true :=
      fun f hf => hops f (hf ▸ List.mem_cons_self _ _)
    have hg2 : InvRevealKnown (applyOp lnW g op) := invRevealKnown_applyOp lnW g op hg hop1
    have hrest : ∀ f, Op.addFactOp f ∈ rest → f.revealed = true → f.knownToPlayer = true :=
      fun f hf => hops f (List.mem_cons_of_mem _ hf)
    obtain ⟨ha, hb⟩ := ih (applyOp lnW g op) hg2 hrest
    refine ⟨by simpa [applyOps, List.foldl_cons] using ha, ?_⟩
    intro id f hf hrev huntouched
    obtain ⟨hrm, hadd⟩ := huntouched op (List.mem_cons_self _ _)
    obtain ⟨f2, hf2, hrev2⟩ := getFact_applyOp_untouched lnW g op id f hf hrev hrm hadd
    have := hb id f2 hf2 hrev2
      (fun op2 hop2 => huntouched op2 (List.mem_cons_of_mem _ hop2))
    simpa [applyOps, List.foldl_cons] using this

/-- A fact with id 1, not yet revealed. -/
def factR1 : Fact Rat :=
  ⟨1, "reveal me", FactType.generic, [], 0, 1, true, false, none, FactSource.initial⟩

/-- Another fact under the same id 1, not revealed. -/
def factR2 : Fact Rat :=
  ⟨1, "overwrite", FactType.generic, [], 0, 1, true, false, none, FactSource.initial⟩

/-- A concrete logarithm instantiation for operation sequences that contain
no build_co_occurrence call. -/
def lnZero : Nat → Rat := fun _ => 0

/-- Claim C8, counterexample: after add_fact(factR1) and reveal_fact(1) the
stored fact is revealed; a further add_fact of a different fact under the
same id 1 - an operation the claim lists as revealed-preserving - leaves
the stored fact with revealed = false. -/
theorem c8_counterexample :
    (getFact (applyOps lnZero emptyGraph
        [Op.addFactOp factR1, Op.revealFactOp 1]) 1).map (fun f => f.revealed) =
      some true ∧
    (getFact (applyOps lnZero emptyGraph
        [Op.addFactOp factR1, Op.revealFactOp 1, Op.addFactOp factR2]) 1).map
        (fun f => f.revealed) = some false := by
  constructor <;>
    simp [applyOps, applyOp, addFact, revealFact, getFact, factR1, factR2, emptyGraph,
      alistInsert, alistUpdate, alistGet, Fact.reveal, List.foldl]

/-- Witness for the amended claim C8 at a concrete instance. -/
theorem c8_witness :
    (InvRevealKnown (emptyGraph : KnowledgeGraph Rat) ∧
      (∀ f, Op.addFactOp f ∈ [Op.addFactOp factR1, Op.revealFactOp 1] →
        f.revealed = true → f.knownToPlayer = true)) ∧
    InvRevealKnown (applyOps lnZero emptyGraph [Op.addFactOp factR1, Op.revealFactOp 1]) := by
  have hg : InvRevealKnown (emptyGraph : KnowledgeGraph Rat) := by
    simp [InvRevealKnown, getFact, emptyGraph, alistGet]
  have hops : ∀ f, Op.addFactOp f ∈ [Op.addFactOp factR1, Op.revealFactOp 1] →
      f.revealed = true → f.knownToPlayer = true := by
    simp [factR1]
  exact ⟨⟨hg, hops⟩,
    (c8_amended lnZero [Op.addFactOp factR1, Op.revealFactOp 1] emptyGraph hg hops).1⟩

/-! ## Claim C7: co-occurrence weighting -/

def magicTag : Tag := Tag.concept "Magic"

def villainTag : Tag := Tag.concept "Villain"

def combatTag : Tag := Tag.concept "Combat"

/-- First fact tagged Magic and Villain.  The facts are generic over the
weight field so that the same definitions serve the real-valued graph. -/
def factM1 (W : Type) [LinearOrderedField W] : Fact W :=
  ⟨1, "Villain casts spell", FactType.generic, [magicTag, villainTag], 0, 1 / 2, true,
    false, none, FactSource.initial⟩

/-- Second fact tagged Magic and Villain. -/
def factM2 (W : Type) [LinearOrderedField W] : Fact W :=
  ⟨2, "Villain summons demon", FactType.generic, [magicTag, villainTag], 0, 1 / 2, true,
    false, none, FactSource.initial⟩

/-- Third fact tagged Magic and Combat. -/
def factM3 (W : Type) [LinearOrderedField W] : Fact W :=
  ⟨3, "Combat spell", FactType.generic, [magicTag, combatTag], 0, 1 / 2, true, false,
    none, FactSource.initial⟩

/-- The three-fact graph of the claim, with no pre-existing associations. -/
def c7Graph (W : Type) [LinearOrderedField W] : KnowledgeGraph W :=
  addFact (addFact (addFact emptyGraph (factM1 W)) (factM2 W)) (factM3 W)

theorem tagLtb_magic_villain : tagLtb (Tag.concept "Magic") (Tag.concept "Villain") = true := by
  decide

theorem tagLtb_magic_combat : tagLtb (Tag.concept "Magic") (Tag.concept "Combat") = false := by
  decide

/-- The canonical co-occurrence counts of the three facts: the pair
(Magic, Villain) twice, the pair (Combat, Magic) once - pair keys are
ordered by the canonical tag order. -/
theorem c7_counts : countPairs ((c7Graph Real).facts.map (fun p => p.2.tags)) =
    [((magicTag, villainTag), 2), ((combatTag, magicTag), 1)] := by
  simp [c7Graph, addFact, factM1, factM2, factM3, emptyGraph, alistInsert, countPairs,
    pairsOfList, List.foldl, alistModify, tagLtb_magic_villain, tagLtb_magic_combat,
    magicTag, villainTag, combatTag]

/-- A list that is a permutation of an explicit two-element list is one of
its two arrangements. -/
theorem perm_pair_inv {α : Type} (l : List α) (a b : α) (h : l.Perm [a, b]) :
    l = [a, b] ∨ l = [b, a] := by
  cases l with
  | nil =>
    have := h.length_eq
    simp at this
  | cons x t =>
    have hx : x ∈ [a, b] := h.mem_iff.mp (List.mem_cons_self _ _)
    rcases List.mem_cons.mp hx with hxa | hxb
    · subst hxa
      have ht : t.Perm [b] := h.cons_inv
      exact Or.inl (by rw [List.perm_singleton.mp ht])
    · rw [List.mem_singleton] at hxb
      subst hxb
      have h2 : (x :: t).Perm (x :: [a]) := h.trans (List.Perm.swap x a [])
      have ht : t.Perm [a] := h2.cons_inv
      exact Or.inr (by rw [List.perm_singleton.mp ht])

theorem log_two_le_one : Real.log 2 ≤ 1 :=
  le_of_lt (lt_of_lt_of_le Real.log_two_lt_d9 (by norm_num))

theorem log_two_pos : (0 : Real) < Real.log 2 :=
  lt_trans (by norm_num) Real.log_two_gt_d9

/-- Claim C7: on the three-fact graph with no pre-existing associations,
build_co_occurrence_associations - for every iteration order of its count
map - stores a bidirectional CoOccurrence edge of weight min(1, ln 2) =
ln 2 between Magic and Villain, a bidirectional CoOccurrence edge of
weight ln 1 = 0 between Magic and Combat (the zero-weight edge is
present), and ln 2 exceeds 0. -/
theorem c7_theorem (o : List ((Tag × Tag) × Nat))
    (ho : o.Perm (countPairs ((c7Graph Real).facts.map (fun p => p.2.tags)))) :
    findTargetAssoc (getAssociations
        (buildCoOccurFromPairs (fun c => Real.log c) (c7Graph Real) o) magicTag) villainTag =
      some ⟨villainTag, Real.log 2, AssociationType.coOccurrence⟩ ∧
    findTargetAssoc (getAssociations
        (buildCoOccurFromPairs (fun c => Real.log c) (c7Graph Real) o) villainTag) magicTag =
      some ⟨magicTag, Real.log 2, AssociationType.coOccurrence⟩ ∧
    findTargetAssoc (getAssociations
        (buildCoOccurFromPairs (fun c => Real.log c) (c7Graph Real) o) magicTag) combatTag =
      some ⟨combatTag, (0 : Real), AssociationType.coOccurrence⟩ ∧
    findTargetAssoc (getAssociations
        (buildCoOccurFromPairs (fun c => Real.log c) (c7Graph Real) o) combatTag) magicTag =
      some ⟨magicTag, (0 : Real), AssociationType.coOccurrence⟩ ∧
    (0 : Real) < Real.log 2 := by
  have hmin2 : min (Real.log 2) 1 = Real.log 2 := min_eq_left log_two_le_one
  have hmin0 : min (0 : Real) 1 = 0 := min_eq_left zero_le_one
  have hclamp2 : clampW (Real.log 2) = Real.log 2 :=
    clampW_eq_self _ (le_of_lt log_two_pos) log_two_le_one
  have hclamp0 : clampW (0 : Real) = 0 := clampW_eq_self _ le_rfl zero_le_one
  rw [c7_counts] at ho
  rcases perm_pair_inv o _ _ ho with h | h <;> subst h <;>
    refine ⟨?_, ?_, ?_, ?_, log_two_pos⟩ <;>
    simp [buildCoOccurFromPairs, addBidirectionalAssociation, addAssociation, c7Graph,
      addFact, factM1, factM2, factM3, emptyGraph, getAssociations, findTargetAssoc,
      alistModify, alistGet, List.foldl, List.find?, updateFirstAssoc, Real.log_one,
      hmin2, hmin0, hclamp2, hclamp0, magicTag, villainTag, combatTag]

/-- Witness for claim C7 at the identity iteration order of the count map. -/
theorem c7_witness :
    (countPairs ((c7Graph Real).facts.map (fun p => p.2.tags))).Perm
        (countPairs ((c7Graph Real).facts.map (fun p => p.2.tags))) ∧
      findTargetAssoc (getAssociations
          (buildCoOccurFromPairs (fun c => Real.log c) (c7Graph Real)
            (countPairs ((c7Graph Real).facts.map (fun p => p.2.tags)))) magicTag) villainTag =
        some ⟨villainTag, Real.log 2, AssociationType.coOccurrence⟩ :=
  ⟨List.Perm.refl _, (c7_theorem _ (List.Perm.refl _)).1⟩

end Cortex
